import Mathlib

/-!
Verification of the csv-llm-helper repository (a CSV-over-LLM processing
platform: a React frontend driving a chunked LLM processing backend).

The repository's files under version control contain the React frontend
(`FileUpload.js`, `ConfigForm`, `ProcessingPanel`, `DataPreview`,
`utils/api.js`, `utils/storage.js`) together with deployment scripts and
documentation.  The backend engine itself (ConfigValidator, DataLoader,
Chunker, PromptBuilder, ModelInvoker, ResponseParser, Aggregator,
OutputWriter, JobOrchestrator) is not among the source files; where a
property concerns the engine, the definitions below are modelled from the
specification's words and are marked `Modelled from the spec:` in their
doc comments.  Frontend code is embedded directly from the JavaScript
sources.
-/

namespace CsvLLM

/-! ## Chunker

Modelled from the spec: "Splits the Row sequence into contiguous groups of
`chunk_size` (the final group may be shorter). ... Never reorders or drops
rows."  The backend implementation is not among the repository's source
files.  -/

/-- Fuel-indexed worker for `chunkRows`: peels `c` rows at a time off the
front of the list.  The fuel argument makes the recursion structural, so
that concrete inputs evaluate by `decide`/`rfl`; `chunkRows` supplies
`l.length` fuel, which suffices because every step removes at least one
row (when `1 ≤ c`). -/
def chunkRowsF {α : Type} : Nat → Nat → List α → List (List α)
  | 0, _, _ => []
  | _ + 1, _, [] => []
  | fuel + 1, c, x :: xs =>
    if c = 0 then []
    else (x :: xs).take c :: chunkRowsF fuel c ((x :: xs).drop c)

/-- Modelled from the spec: the Chunker.  Splits `l` into contiguous groups
of `c` rows, the final group possibly shorter. -/
def chunkRows {α : Type} (c : Nat) (l : List α) : List (List α) :=
  chunkRowsF l.length c l

@[simp] theorem chunkRows_nil {α : Type} (c : Nat) :
    chunkRows c ([] : List α) = [] := rfl

/-- Any fuel of at least `l.length` computes `chunkRows`. -/
theorem chunkRowsF_eq_of_le {α : Type} (fuel : Nat) :
    ∀ (c : Nat) (l : List α), l.length ≤ fuel → 1 ≤ c →
      chunkRowsF fuel c l = chunkRows c l := by
  induction fuel using Nat.strong_induction_on with
  | _ fuel ih =>
    intro c l hl hc
    match fuel, l with
    | 0, [] => rfl
    | n + 1, [] => rfl
    | n + 1, x :: xs =>
      have hc0 : ¬ c = 0 := by omega
      have hlen : xs.length ≤ n := by
        simpa using hl
      have hdrop : ((x :: xs).drop c).length ≤ xs.length := by
        simp only [List.length_drop, List.length_cons]
        omega
      show (if c = 0 then [] else _) = chunkRows c (x :: xs)
      rw [if_neg hc0]
      show _ = chunkRowsF (x :: xs).length c (x :: xs)
      simp only [List.length_cons, chunkRowsF, if_neg hc0]
      rw [ih n (by omega) c _ (le_trans hdrop hlen) hc,
        ih xs.length (by omega) c _ hdrop hc]

/-- One-step unfolding of `chunkRows` on a non-empty list with `1 ≤ c`. -/
theorem chunkRows_cons {α : Type} (c : Nat) (hc : 1 ≤ c) (x : α) (xs : List α) :
    chunkRows c (x :: xs) =
      (x :: xs).take c :: chunkRows c ((x :: xs).drop c) := by
  have hc0 : ¬ c = 0 := by omega
  show chunkRowsF (x :: xs).length c (x :: xs) = _
  simp only [List.length_cons, chunkRowsF, if_neg hc0]
  rw [chunkRowsF_eq_of_le xs.length c ((x :: xs).drop c)
    (by simp only [List.length_drop, List.length_cons]; omega) hc]

/-- A non-empty list yields at least one chunk. -/
theorem chunkRows_ne_nil {α : Type} (c : Nat) (hc : 1 ≤ c) (x : α)
    (xs : List α) : chunkRows c (x :: xs) ≠ [] := by
  rw [chunkRows_cons c hc]
  simp

/-- Concatenating the chunks in index order reconstructs the source rows. -/
theorem chunkRows_flatten {α : Type} (c : Nat) (hc : 1 ≤ c) :
    ∀ l : List α, (chunkRows c l).flatten = l
  | [] => by simp
  | x :: xs => by
    rw [chunkRows_cons c hc, List.flatten_cons,
      chunkRows_flatten c hc ((x :: xs).drop c)]
    exact List.take_append_drop c (x :: xs)
termination_by l => l.length
decreasing_by
  simp only [List.length_drop, List.length_cons]
  omega

/-- The number of chunks is `⌈R / c⌉`, computed as `(R + c - 1) / c`. -/
theorem chunkRows_length {α : Type} (c : Nat) (hc : 1 ≤ c) :
    ∀ l : List α, (chunkRows c l).length = (l.length + c - 1) / c
  | [] => by
    simp only [chunkRows_nil, List.length_nil, Nat.zero_add]
    rw [Nat.div_eq_of_lt (by omega)]
  | x :: xs => by
    rw [chunkRows_cons c hc]
    rw [List.length_cons, chunkRows_length c hc ((x :: xs).drop c)]
    simp only [List.length_drop, List.length_cons]
    rcases le_or_lt (xs.length + 1) c with h | h
    · have h1 : xs.length + 1 - c = 0 := by omega
      rw [h1]
      have h2 : (xs.length + 1 + c - 1) / c = 1 :=
        Nat.div_eq_of_lt_le (by omega) (by omega)
      rw [h2]
      rw [Nat.div_eq_of_lt (by omega)]
    · have h1 : xs.length + 1 - c + c - 1 = xs.length := by omega
      have h2 : xs.length + 1 + c - 1 = xs.length + c := by omega
      rw [h1, h2, Nat.add_div_right _ (by omega)]
termination_by l => l.length
decreasing_by
  simp only [List.length_drop, List.length_cons]
  omega

/-- Every chunk except the last has exactly `c` rows. -/
theorem chunkRows_dropLast_sizes {α : Type} (c : Nat) (hc : 1 ≤ c) :
    ∀ l : List α, ∀ ch ∈ (chunkRows c l).dropLast, ch.length = c
  | [] => by simp
  | x :: xs => by
    intro ch hch
    rw [chunkRows_cons c hc] at hch
    match hrest : chunkRows c ((x :: xs).drop c) with
    | [] =>
      rw [hrest] at hch
      simp at hch
    | r :: rs =>
      rw [hrest, List.dropLast_cons₂] at hch
      rcases List.mem_cons.mp hch with h | h
      · subst h
        have hlen : c ≤ (x :: xs).length := by
          by_contra hlt
          push_neg at hlt
          have hd : (x :: xs).drop c = [] :=
            List.drop_eq_nil_of_le (Nat.le_of_lt hlt)
          rw [hd] at hrest
          simp [chunkRows_nil] at hrest
        simp only [List.length_take]
        omega
      · rw [← hrest] at h
        exact chunkRows_dropLast_sizes c hc ((x :: xs).drop c) ch h
termination_by l => l.length
decreasing_by
  simp only [List.length_drop, List.length_cons]
  omega

/-- The size of the last chunk: `R % c` when that is non-zero, `c`
otherwise (for a non-empty input). -/
theorem chunkRows_getLast_size {α : Type} (c : Nat) (hc : 1 ≤ c) :
    ∀ l : List α, (chunkRows c l).getLast?.map List.length =
      if l.length = 0 then none
      else some (if l.length % c = 0 then c else l.length % c)
  | [] => by simp
  | x :: xs => by
    rw [chunkRows_cons c hc]
    rw [if_neg (by simp)]
    match hrest : chunkRows c ((x :: xs).drop c) with
    | [] =>
      have hlen : (x :: xs).length ≤ c := by
        by_contra hlt
        push_neg at hlt
        have hne : (x :: xs).drop c ≠ [] := by
          intro h0
          have h1 := List.length_drop c (x :: xs)
          rw [h0] at h1
          simp only [List.length_nil, List.length_cons] at h1
          simp only [List.length_cons] at hlt
          omega
        match hd : (x :: xs).drop c with
        | [] => exact hne hd
        | y :: ys =>
          rw [hd] at hrest
          exact chunkRows_ne_nil c hc y ys hrest
      have htake : (x :: xs).take c = x :: xs := List.take_of_length_le hlen
      rw [htake]
      simp only [List.getLast?_singleton, Option.map_some']
      rcases lt_or_ge (x :: xs).length c with h | h
      · rw [if_neg (by rw [Nat.mod_eq_of_lt h]; simp)]
        rw [Nat.mod_eq_of_lt h]
      · have heq : (x :: xs).length = c := Nat.le_antisymm hlen h
        rw [heq]
        simp
    | r :: rs =>
      rw [List.getLast?_cons_cons]
      have hrec := chunkRows_getLast_size c hc ((x :: xs).drop c)
      rw [hrest] at hrec
      have hne : ((x :: xs).drop c).length ≠ 0 := by
        intro h0
        have : (x :: xs).drop c = [] := List.length_eq_zero.mp h0
        rw [this] at hrest
        simp [chunkRows_nil] at hrest
      rw [if_neg hne] at hrec
      rw [hrec]
      have hlen : c ≤ (x :: xs).length := by
        by_contra hlt
        push_neg at hlt
        have : (x :: xs).drop c = [] :=
          List.drop_eq_nil_of_le (Nat.le_of_lt hlt)
        rw [this] at hne
        simp at hne
      have hmod : ((x :: xs).drop c).length % c = (x :: xs).length % c := by
        rw [List.length_drop]
        conv_rhs => rw [Nat.mod_eq_sub_mod hlen]
      rw [hmod]
termination_by l => l.length
decreasing_by
  simp only [List.length_drop, List.length_cons]
  omega

/-! ## Aggregator

Modelled from the spec: "On success, appends its OutputRows to a merge
buffer keyed by row identifier ... Once every chunk has a terminal result,
sorts the merge buffer by row identifier to produce the final
OutputDataset."  The backend implementation is not among the repository's
source files. -/

/-- An output row: a value row tagged with the source row identifier (the
row's 0-based position in the source dataset). -/
structure OutputRow where
  rowId : Nat
  values : List String
  deriving DecidableEq, Repr

/-- Terminal status of one chunk. -/
inductive ChunkStatus where
  | succeeded
  | failed
  | cancelled
  deriving DecidableEq, Repr

/-- The terminal result of one dispatched chunk. -/
structure ChunkResult where
  chunkIndex : Nat
  status : ChunkStatus
  rows : List OutputRow
  deriving DecidableEq, Repr

/-- The output rows a chunk result contributes to the merge buffer:
its rows when it succeeded, nothing otherwise. -/
def successRows (r : ChunkResult) : List OutputRow :=
  if r.status = ChunkStatus.succeeded then r.rows else []

/-- The merge buffer: all output rows of succeeded chunks, in completion
order. -/
def mergeBuffer (results : List ChunkResult) : List OutputRow :=
  results.flatMap successRows

/-- Row order in the final dataset: comparison by source row identifier. -/
def rowLe (a b : OutputRow) : Prop := a.rowId ≤ b.rowId

/-- Strict version of `rowLe`. -/
def rowLt (a b : OutputRow) : Prop := a.rowId < b.rowId

instance : DecidableRel rowLe := fun a b => Nat.decLe a.rowId b.rowId

instance : IsTotal OutputRow rowLe := ⟨fun a b => Nat.le_total a.rowId b.rowId⟩

instance : IsTrans OutputRow rowLe := ⟨fun _ _ _ h1 h2 => Nat.le_trans h1 h2⟩

/-- Modelled from the spec: the Aggregator's final merge.  Sorts the merge
buffer by source row identifier. -/
def aggregate (results : List ChunkResult) : List OutputRow :=
  List.insertionSort rowLe (mergeBuffer results)

/-- Two permutations of one another that are both strictly sorted by row
identifier are equal. -/
theorem eq_of_perm_of_pairwise_rowLt :
    ∀ {l₁ l₂ : List OutputRow}, List.Perm l₁ l₂ →
      l₁.Pairwise rowLt → l₂.Pairwise rowLt → l₁ = l₂ := by
  intro l₁
  induction l₁ with
  | nil =>
    intro l₂ hp _ _
    exact (hp.nil_eq).symm ▸ rfl
  | cons a t₁ ih =>
    intro l₂ hp h₁ h₂
    match l₂ with
    | [] => exact absurd hp.symm (by simp)
    | b :: t₂ =>
      have hab : a = b := by
        by_contra hne
        have hbmem : b ∈ a :: t₁ := hp.mem_iff.mpr (List.mem_cons_self b t₂)
        have hbt₁ : b ∈ t₁ := by
          rcases List.mem_cons.mp hbmem with h | h
          · exact absurd h.symm hne
          · exact h
        have hamem : a ∈ b :: t₂ := hp.mem_iff.mp (List.mem_cons_self a t₁)
        have hat₂ : a ∈ t₂ := by
          rcases List.mem_cons.mp hamem with h | h
          · exact absurd h hne
          · exact h
        have h3 : rowLt a b := (List.pairwise_cons.mp h₁).1 b hbt₁
        have h4 : rowLt b a := (List.pairwise_cons.mp h₂).1 a hat₂
        exact Nat.lt_asymm h3 h4
      subst hab
      have htail : List.Perm t₁ t₂ := hp.cons_inv
      rw [ih htail (List.pairwise_cons.mp h₁).2 (List.pairwise_cons.mp h₂).2]

/-- A list sorted by `rowLe` whose row identifiers are pairwise distinct is
strictly sorted. -/
theorem pairwise_rowLt_of_sorted_nodup {l : List OutputRow}
    (hs : l.Sorted rowLe) (hn : (l.map OutputRow.rowId).Nodup) :
    l.Pairwise rowLt := by
  have hne : l.Pairwise (fun a b => a.rowId ≠ b.rowId) := by
    rw [List.Nodup, List.pairwise_map] at hn
    exact hn
  have hcomb := hs.and hne
  exact hcomb.imp (fun h => Nat.lt_of_le_of_ne h.1 h.2)

/-- The final dataset is sorted by row identifier. -/
theorem aggregate_sorted (results : List ChunkResult) :
    (aggregate results).Sorted rowLe :=
  List.sorted_insertionSort rowLe (mergeBuffer results)

/-- The final dataset is a permutation of the merge buffer. -/
theorem aggregate_perm (results : List ChunkResult) :
    List.Perm (aggregate results) (mergeBuffer results) :=
  List.perm_insertionSort rowLe (mergeBuffer results)

/-- C1: for every job in which all dispatched chunks reach a terminal
ChunkResult, the rows of the final output dataset are sorted by source row
identifier, and the final dataset is independent of the order in which
chunks complete: any two completion orders (permutations of the same
terminal results) produce the same output dataset.  The distinctness
hypothesis is the spec's invariant that row identifiers are unique. -/
theorem aggregator_order_independent (res₁ res₂ : List ChunkResult)
    (hperm : List.Perm res₁ res₂)
    (hnodup : ((mergeBuffer res₁).map OutputRow.rowId).Nodup) :
    aggregate res₁ = aggregate res₂ ∧ (aggregate res₁).Sorted rowLe := by
  have hb : List.Perm (mergeBuffer res₁) (mergeBuffer res₂) :=
    hperm.flatMap_right successRows
  have hp₁ := aggregate_perm res₁
  have hp₂ := aggregate_perm res₂
  have hagg : List.Perm (aggregate res₁) (aggregate res₂) :=
    hp₁.trans (hb.trans hp₂.symm)
  have hn₁ : ((aggregate res₁).map OutputRow.rowId).Nodup :=
    ((hp₁.map OutputRow.rowId).nodup_iff).mpr hnodup
  have hn₂ : ((aggregate res₂).map OutputRow.rowId).Nodup :=
    ((hagg.map OutputRow.rowId).nodup_iff).mp hn₁
  refine ⟨eq_of_perm_of_pairwise_rowLt hagg ?_ ?_, aggregate_sorted res₁⟩
  · exact pairwise_rowLt_of_sorted_nodup (aggregate_sorted res₁) hn₁
  · exact pairwise_rowLt_of_sorted_nodup (aggregate_sorted res₂) hn₂

/-- Witness for C1: two completion orders of the same three chunk results
(chunk 1 finishing before chunk 0) aggregate to the same dataset. -/
theorem aggregator_order_independent_witness :
    aggregate
        [ChunkResult.mk 0 ChunkStatus.succeeded
            [OutputRow.mk 0 ["a"], OutputRow.mk 1 ["b"]],
          ChunkResult.mk 1 ChunkStatus.succeeded [OutputRow.mk 2 ["c"]]]
      = aggregate
        [ChunkResult.mk 1 ChunkStatus.succeeded [OutputRow.mk 2 ["c"]],
          ChunkResult.mk 0 ChunkStatus.succeeded
            [OutputRow.mk 0 ["a"], OutputRow.mk 1 ["b"]]]
    ∧ (aggregate
        [ChunkResult.mk 0 ChunkStatus.succeeded
            [OutputRow.mk 0 ["a"], OutputRow.mk 1 ["b"]],
          ChunkResult.mk 1 ChunkStatus.succeeded [OutputRow.mk 2 ["c"]]]).Sorted
        rowLe :=
  aggregator_order_independent _ _ (by decide) (by decide)

/-- C2: for every row sequence of length `R` and chunk size `c ≥ 1`, the
Chunker produces `⌈R/c⌉` chunks (computed as `(R + c - 1) / c`) whose
concatenation in index order is exactly the original sequence; every chunk
has `c` rows except possibly the last, whose size is `R % c` when that is
non-zero and `c` otherwise. -/
theorem chunker_partition {α : Type} (c : Nat) (l : List α) (hc : 1 ≤ c) :
    (chunkRows c l).flatten = l
    ∧ (chunkRows c l).length = (l.length + c - 1) / c
    ∧ (∀ ch ∈ (chunkRows c l).dropLast, ch.length = c)
    ∧ ((chunkRows c l).getLast?.map List.length =
        if l.length = 0 then none
        else some (if l.length % c = 0 then c else l.length % c)) :=
  ⟨chunkRows_flatten c hc l, chunkRows_length c hc l,
    chunkRows_dropLast_sizes c hc l, chunkRows_getLast_size c hc l⟩

/-- Witness for C2, at the spec's own example: 100 rows with chunk size 40
split into chunks of sizes 40, 40, 20. -/
theorem chunker_partition_witness :
    (chunkRows 40 (List.range 100)).flatten = List.range 100
    ∧ (chunkRows 40 (List.range 100)).length = (100 + 40 - 1) / 40
    ∧ (∀ ch ∈ (chunkRows 40 (List.range 100)).dropLast, ch.length = 40)
    ∧ ((chunkRows 40 (List.range 100)).getLast?.map List.length =
        if (List.range 100).length = 0 then none
        else some
          (if (List.range 100).length % 40 = 0 then 40
            else (List.range 100).length % 40)) := by
  have h := chunker_partition 40 (List.range 100) (by decide)
  simpa using h

/-! ## OutputWriter and DataLoader: CSV serialization

Modelled from the spec: the OutputWriter "applies the same escaping
convention as DataLoader/PromptBuilder so that writing then re-loading
under the same schema reproduces byte-identical values"; the convention is
the standard CSV one ("any field value containing the row/field delimiter
or a line break is escaped using a fixed, documented convention"): a field
containing a comma, a double quote or a line break is wrapped in double
quotes with embedded quotes doubled.  Records are newline-terminated.
Fields and the serialized file are sequences of characters (`List Char`),
so "byte-identical" is character-for-character identity.  The backend
implementation is not among the repository's source files. -/

/-- Characters that force a field to be quoted: the field delimiter, the
quote character and line breaks. -/
def isSpecial (ch : Char) : Bool :=
  ch = ',' || ch = '"' || ch = '\n' || ch = '\r'

/-- Does the field need the quoting convention? -/
def needsQuote (f : List Char) : Bool := f.any isSpecial

/-- Double every embedded quote character. -/
def dupQuotes : List Char → List Char
  | [] => []
  | ch :: t => if ch = '"' then '"' :: '"' :: dupQuotes t else ch :: dupQuotes t

/-- Modelled from the spec: the escaping convention applied to one field
value. -/
def escapeField (f : List Char) : List Char :=
  if needsQuote f then '"' :: (dupQuotes f ++ ['"']) else f

/-- Serialize one record: escaped fields joined by the delimiter. -/
def writeRecord : List (List Char) → List Char
  | [] => []
  | [f] => escapeField f
  | f :: fs => escapeField f ++ ',' :: writeRecord fs

/-- Modelled from the spec: the OutputWriter's serialization of a table of
records (the header row first), each record newline-terminated. -/
def writeCsv (table : List (List (List Char))) : List Char :=
  (table.map (fun r => writeRecord r ++ ['\n'])).flatten

/-- Parse the remainder of a quoted field (the opening quote already
consumed): a doubled quote is an escaped quote character, a lone quote
closes the field.  Returns the accumulated field value and the rest of the
input, or `none` on an unterminated quote. -/
def parseQuoted : List Char → List Char → Option (List Char × List Char)
  | [], _ => none
  | [ch], acc => if ch = '"' then some (acc, []) else none
  | ch :: c2 :: t, acc =>
    if ch = '"' then
      if c2 = '"' then parseQuoted t (acc ++ ['"'])
      else some (acc, c2 :: t)
    else parseQuoted (c2 :: t) (acc ++ [ch])

/-- Parse an unquoted field: everything up to the next delimiter or line
break. -/
def parseUnquoted : List Char → List Char × List Char
  | [] => ([], [])
  | ch :: t =>
    if ch = ',' ∨ ch = '\n' then ([], ch :: t)
    else
      let p := parseUnquoted t
      (ch :: p.1, p.2)

/-- Parse one field: quoted when the input starts with a quote, unquoted
otherwise. -/
def parseField (s : List Char) : Option (List Char × List Char) :=
  match s with
  | '"' :: t => parseQuoted t []
  | _ => some (parseUnquoted s)

/-- Fuel-indexed record parser: fields separated by commas, the record
ended by a line break or the end of input. -/
def parseRecordF : Nat → List Char → Option (List (List Char) × List Char)
  | 0, _ => none
  | fuel + 1, s =>
    match parseField s with
    | none => none
    | some p =>
      match p.2 with
      | ',' :: t =>
        match parseRecordF fuel t with
        | none => none
        | some q => some (p.1 :: q.1, q.2)
      | '\n' :: t => some ([p.1], t)
      | [] => some ([p.1], [])
      | _ => none

/-- Parse one record; `s.length + 1` fuel always suffices because every
field separator consumes a character. -/
def parseRecord (s : List Char) : Option (List (List Char) × List Char) :=
  parseRecordF (s.length + 1) s

/-- Fuel-indexed parser for a sequence of records. -/
def parseCsvF : Nat → List Char → Option (List (List (List Char)))
  | _, [] => some []
  | 0, _ :: _ => none
  | fuel + 1, ch :: t =>
    match parseRecord (ch :: t) with
    | none => none
    | some p =>
      match parseCsvF fuel p.2 with
      | none => none
      | some rest => some (p.1 :: rest)

/-- Modelled from the spec: the DataLoader's low-level parse of a CSV
character stream into records; `s.length + 1` fuel always suffices because
every record consumes at least one character. -/
def parseCsv (s : List Char) : Option (List (List (List Char))) :=
  parseCsvF (s.length + 1) s

/-- Modelled from the spec: the OutputWriter.  Serializes the dataset with
the schema's column names as the header row. -/
def writeOutput (header : List (List Char)) (rows : List (List (List Char))) :
    List Char :=
  writeCsv (header :: rows)

/-- Modelled from the spec: the DataLoader.  Parses the header row for the
column order and the remaining records as rows, failing on inconsistent
column counts. -/
def loadCsv (s : List Char) :
    Option (List (List Char) × List (List (List Char))) :=
  match parseCsv s with
  | some (hdr :: rows) =>
    if rows.all (fun r => r.length = hdr.length) then some (hdr, rows)
    else none
  | _ => none

/-! Step lemmas for the parsers, phrased so that later proofs rewrite with
them instead of unfolding the nested matches directly. -/

theorem parseQuoted_end (acc : List Char) :
    parseQuoted ['"'] acc = some (acc, []) := by
  simp [parseQuoted]

theorem parseQuoted_escaped (t acc : List Char) :
    parseQuoted ('"' :: '"' :: t) acc = parseQuoted t (acc ++ ['"']) := by
  simp [parseQuoted]

theorem parseQuoted_close (c : Char) (t acc : List Char) (h : c ≠ '"') :
    parseQuoted ('"' :: c :: t) acc = some (acc, c :: t) := by
  simp [parseQuoted, h]

theorem parseQuoted_other (c : Char) (t acc : List Char) (h : c ≠ '"')
    (ht : t ≠ []) :
    parseQuoted (c :: t) acc = parseQuoted t (acc ++ [c]) := by
  match t with
  | [] => exact absurd rfl ht
  | c2 :: t' => simp [parseQuoted, h]

theorem parseUnquoted_stop (ch : Char) (t : List Char)
    (h : ch = ',' ∨ ch = '\n') :
    parseUnquoted (ch :: t) = ([], ch :: t) := by
  simp only [parseUnquoted]
  rw [if_pos h]

theorem parseUnquoted_go (ch : Char) (t : List Char)
    (h : ¬(ch = ',' ∨ ch = '\n')) :
    parseUnquoted (ch :: t) =
      (ch :: (parseUnquoted t).1, (parseUnquoted t).2) := by
  simp only [parseUnquoted]
  rw [if_neg h]

theorem parseField_quote (t : List Char) :
    parseField ('"' :: t) = parseQuoted t [] := rfl

theorem parseField_not_quote (s : List Char) (h : s.head? ≠ some '"') :
    parseField s = some (parseUnquoted s) := by
  match s with
  | [] => rfl
  | ch :: t =>
    have hch : ch ≠ '"' := by
      intro h0
      rw [h0] at h
      exact h rfl
    simp only [parseField]
    split
    · next t' heq =>
      exact absurd (List.cons.injEq .. ▸ heq).1 hch
    · rfl

/-- Parsing the quoted serialization of a field recovers the field: the
doubled quotes unescape and the closing quote ends the field, provided the
text after the closing quote does not begin with another quote. -/
theorem parseQuoted_dupQuotes :
    ∀ (f acc rest : List Char), rest.head? ≠ some '"' →
      parseQuoted (dupQuotes f ++ '"' :: rest) acc = some (acc ++ f, rest) := by
  intro f
  induction f with
  | nil =>
    intro acc rest hrest
    simp only [dupQuotes, List.nil_append, List.append_nil]
    match rest with
    | [] => exact parseQuoted_end acc
    | r :: rt =>
      have hr : r ≠ '"' := by
        intro h0
        rw [h0] at hrest
        exact hrest rfl
      exact parseQuoted_close r rt acc hr
  | cons c f' ih =>
    intro acc rest hrest
    by_cases hc : c = '"'
    · subst hc
      have hdup : dupQuotes ('"' :: f') = '"' :: '"' :: dupQuotes f' := by
        simp [dupQuotes]
      rw [hdup, List.cons_append, List.cons_append, parseQuoted_escaped,
        ih (acc ++ ['"']) rest hrest]
      simp
    · have hdup : dupQuotes (c :: f') = c :: dupQuotes f' := by
        simp [dupQuotes, hc]
      rw [hdup, List.cons_append,
        parseQuoted_other c _ acc hc (by simp), ih (acc ++ [c]) rest hrest]
      simp

/-- Parsing an unquoted serialization recovers the field: a field free of
delimiters and line breaks parses back to itself, stopping at the
terminator that follows it. -/
theorem parseUnquoted_clean :
    ∀ (f rest : List Char),
      (∀ ch ∈ f, ¬(ch = ',' ∨ ch = '\n')) →
      (rest = [] ∨ rest.head? = some ',' ∨ rest.head? = some '\n') →
      parseUnquoted (f ++ rest) = (f, rest) := by
  intro f
  induction f with
  | nil =>
    intro rest _ hrest
    match rest with
    | [] => rfl
    | r :: rt =>
      have hr : r = ',' ∨ r = '\n' := by
        rcases hrest with h | h | h
        · exact absurd h (by simp)
        · exact Or.inl (by simpa using h)
        · exact Or.inr (by simpa using h)
      simpa using parseUnquoted_stop r rt hr
  | cons c f' ih =>
    intro rest hf hrest
    have hc : ¬(c = ',' ∨ c = '\n') := hf c (List.mem_cons_self c f')
    rw [List.cons_append, parseUnquoted_go c _ hc,
      ih rest (fun ch hch => hf ch (List.mem_cons_of_mem c hch)) hrest]

/-- A field free of special characters when `needsQuote` is false. -/
theorem not_special_of_not_needsQuote {f : List Char}
    (h : needsQuote f = false) : ∀ ch ∈ f, isSpecial ch = false := by
  intro ch hch
  by_contra habs
  have h1 : needsQuote f = true := by
    simp only [needsQuote, List.any_eq_true]
    exact ⟨ch, hch, by simpa using habs⟩
  rw [h1] at h
  exact absurd h (by simp)

/-- Round trip for a single escaped field followed by a delimiter or a
line break. -/
theorem parseField_escape (f : List Char) (d : Char)
    (hd : d = ',' ∨ d = '\n') (rest : List Char) :
    parseField (escapeField f ++ d :: rest) = some (f, d :: rest) := by
  have hdq : d ≠ '"' := by
    rcases hd with h | h <;> (subst h; decide)
  by_cases hq : needsQuote f
  · simp only [escapeField, if_pos hq, List.cons_append, List.append_assoc,
      List.singleton_append, List.nil_append]
    rw [parseField_quote]
    rw [parseQuoted_dupQuotes f [] (d :: rest)
      (by
        intro h0
        simp only [List.head?_cons, Option.some.injEq] at h0
        exact hdq h0)]
    simp
  · have hspec : ∀ ch ∈ f, isSpecial ch = false :=
      not_special_of_not_needsQuote (by simpa using hq)
    simp only [escapeField, if_neg hq]
    have hhead : (f ++ d :: rest).head? ≠ some '"' := by
      match f with
      | [] =>
        intro h0
        simp only [List.nil_append, List.head?_cons, Option.some.injEq] at h0
        exact hdq h0
      | c :: f' =>
        have hc : isSpecial c = false := hspec c (List.mem_cons_self c f')
        intro h0
        simp only [List.cons_append, List.head?_cons, Option.some.injEq] at h0
        rw [h0] at hc
        exact absurd hc (by decide)
    rw [parseField_not_quote _ hhead]
    rw [parseUnquoted_clean f (d :: rest)
      (fun ch hch => by
        have hsp := hspec ch hch
        simp only [isSpecial] at hsp
        intro habs
        rcases habs with h | h <;> (subst h; simp_all))
      (by
        rcases hd with h | h
        · exact Or.inr (Or.inl (by rw [h]; rfl))
        · exact Or.inr (Or.inr (by rw [h]; rfl)))]

theorem parseRecordF_step_comma (fuel : Nat) (s f t : List Char)
    (hf : parseField s = some (f, ',' :: t)) :
    parseRecordF (fuel + 1) s =
      match parseRecordF fuel t with
      | none => none
      | some q => some (f :: q.1, q.2) := by
  simp only [parseRecordF, hf]

theorem parseRecordF_step_newline (fuel : Nat) (s f t : List Char)
    (hf : parseField s = some (f, '\n' :: t)) :
    parseRecordF (fuel + 1) s = some ([f], t) := by
  simp only [parseRecordF, hf]

theorem writeRecord_cons₂ (f y : List Char) (ys : List (List Char)) :
    writeRecord (f :: y :: ys) = escapeField f ++ ',' :: writeRecord (y :: ys) :=
  rfl

/-- Round trip for one serialized record followed by its newline
terminator. -/
theorem parseRecordF_write :
    ∀ (fs : List (List Char)) (fuel : Nat) (rest : List Char), fs ≠ [] →
      (writeRecord fs).length < fuel →
      parseRecordF fuel (writeRecord fs ++ '\n' :: rest) = some (fs, rest) := by
  intro fs
  induction fs with
  | nil => intro fuel rest h _; exact absurd rfl h
  | cons f fs' ih =>
    intro fuel rest _ hfuel
    match fuel with
    | 0 => omega
    | k + 1 =>
      match fs' with
      | [] =>
        show parseRecordF (k + 1) (escapeField f ++ '\n' :: rest) = _
        rw [parseRecordF_step_newline k _ f rest
          (parseField_escape f '\n' (Or.inr rfl) rest)]
      | y :: ys =>
        rw [writeRecord_cons₂, List.append_assoc, List.cons_append]
        rw [parseRecordF_step_comma k _ f (writeRecord (y :: ys) ++ '\n' :: rest)
          (parseField_escape f ',' (Or.inl rfl) _)]
        have hlen : (writeRecord (y :: ys)).length < k := by
          rw [writeRecord_cons₂] at hfuel
          simp only [List.length_append, List.length_cons] at hfuel
          omega
        rw [ih k rest (by simp) hlen]

theorem parseRecord_write (fs : List (List Char)) (rest : List Char)
    (h : fs ≠ []) :
    parseRecord (writeRecord fs ++ '\n' :: rest) = some (fs, rest) := by
  apply parseRecordF_write fs _ rest h
  simp only [List.length_append, List.length_cons]
  omega

theorem writeCsv_nil : writeCsv [] = [] := rfl

theorem writeCsv_cons (r : List (List Char)) (t : List (List (List Char))) :
    writeCsv (r :: t) = writeRecord r ++ '\n' :: writeCsv t := by
  simp [writeCsv, List.append_assoc]

theorem parseCsvF_nil (fuel : Nat) : parseCsvF fuel [] = some [] := by
  match fuel with
  | 0 => rfl
  | _ + 1 => rfl

theorem parseCsvF_step (fuel : Nat) (s : List Char) (hs : s ≠ [])
    (p : List (List Char) × List Char) (hp : parseRecord s = some p) :
    parseCsvF (fuel + 1) s =
      match parseCsvF fuel p.2 with
      | none => none
      | some rest => some (p.1 :: rest) := by
  match s with
  | [] => exact absurd rfl hs
  | ch :: t => simp only [parseCsvF, hp]

/-- Each record contributes at least its newline terminator. -/
theorem le_length_writeCsv :
    ∀ table : List (List (List Char)), table.length ≤ (writeCsv table).length := by
  intro table
  induction table with
  | nil => simp [writeCsv_nil]
  | cons r t ih =>
    rw [writeCsv_cons]
    simp only [List.length_append, List.length_cons]
    omega

/-- Round trip at the table level, for any sufficient fuel. -/
theorem parseCsvF_write :
    ∀ (table : List (List (List Char))) (fuel : Nat),
      (∀ r ∈ table, r ≠ []) → table.length < fuel →
      parseCsvF fuel (writeCsv table) = some table := by
  intro table
  induction table with
  | nil => intro fuel _ _; rw [writeCsv_nil]; exact parseCsvF_nil fuel
  | cons r t ih =>
    intro fuel hr hfuel
    match fuel with
    | 0 => omega
    | k + 1 =>
      rw [writeCsv_cons]
      have hs : writeRecord r ++ '\n' :: writeCsv t ≠ [] := by
        intro h0
        have := congrArg List.length h0
        simp at this
      rw [parseCsvF_step k _ hs (r, writeCsv t)
        (parseRecord_write r (writeCsv t) (hr r (List.mem_cons_self r t)))]
      rw [ih k (fun x hx => hr x (List.mem_cons_of_mem r hx)) (by
        simp only [List.length_cons] at hfuel
        omega)]

/-- Round trip of the low-level writer and parser. -/
theorem parseCsv_writeCsv (table : List (List (List Char)))
    (h : ∀ r ∈ table, r ≠ []) :
    parseCsv (writeCsv table) = some table := by
  apply parseCsvF_write table _ h
  have := le_length_writeCsv table
  omega

/-- C3: for every output dataset — any header (the schema's column names,
non-empty per the spec's Config invariant) and any rows whose arity
matches the schema, with arbitrary field values including ones containing
the delimiter, quotes or line breaks — serializing with the OutputWriter
and re-parsing with the DataLoader under the same schema reproduces every
field value byte-for-byte. -/
theorem outputwriter_dataloader_roundtrip (hdr : List (List Char))
    (rows : List (List (List Char))) (hh : hdr ≠ [])
    (harity : ∀ r ∈ rows, r.length = hdr.length) :
    loadCsv (writeOutput hdr rows) = some (hdr, rows) := by
  have hne : ∀ r ∈ hdr :: rows, r ≠ [] := by
    intro r hr
    rcases List.mem_cons.mp hr with h | h
    · subst h; exact hh
    · intro h0
      have := harity r h
      rw [h0] at this
      simp only [List.length_nil] at this
      exact hh (List.length_eq_zero.mp this.symm)
  have hparse : parseCsv (writeOutput hdr rows) = some (hdr :: rows) :=
    parseCsv_writeCsv (hdr :: rows) hne
  simp only [loadCsv, hparse]
  rw [if_pos]
  simp only [List.all_eq_true, decide_eq_true_eq]
  exact fun r hr => harity r hr

/-- Witness for C3: a two-column dataset whose values contain the
delimiter, a line break and a quote character round-trips exactly. -/
theorem outputwriter_dataloader_roundtrip_witness :
    loadCsv
        (writeOutput [['i', 'd'], ['v', 'a', 'l']]
          [[['1'], ['a', ',', 'b']],
            [['2'], ['x', '\n', 'y']],
            [['3'], ['q', '"', 'z']]])
      = some ([['i', 'd'], ['v', 'a', 'l']],
          [[['1'], ['a', ',', 'b']],
            [['2'], ['x', '\n', 'y']],
            [['3'], ['q', '"', 'z']]]) :=
  outputwriter_dataloader_roundtrip _ _ (by decide) (by decide)

/-! ## ConfigValidator

Modelled from the spec: "Validates, collecting **all** violations (not
fail-fast): chunk_size ≥ 1; processing_logic length ≥ a fixed minimum;
output_schema non-empty with unique column names; provider-specific
required fields present (e.g., credential, and base endpoint when the
provider is ```custom```).  Returns either a normalized Config or a
ConfigError carrying the full violation list."  The backend implementation
is not among the repository's source files; the fixed minimum length (10)
and the field names follow the frontend `ConfigForm` rules. -/

/-- One output-schema column: name and semantic description. -/
structure SchemaColumn where
  name : String
  description : String
  deriving DecidableEq, Repr

/-- The raw configuration object submitted for validation. -/
structure RawConfig where
  chunk_size : Int
  processing_logic : String
  output_schema : List SchemaColumn
  llm_provider : String
  llm_model : String
  api_key : String
  api_base_url : String
  max_retries : Nat
  timeout : Nat
  deriving DecidableEq, Repr

/-- The individual validation rules. -/
inductive ConfigViolation where
  | chunkSizeTooSmall
  | logicTooShort
  | emptySchema
  | duplicateColumns
  | missingApiKey
  | missingBaseUrl
  deriving DecidableEq, Repr

/-- The fixed minimum length of `processing_logic` (the frontend rule:
"描述至少需要10个字符"). -/
def minLogicLength : Nat := 10

/-- Which configurations violate which rule (the spec's reading of each
check). -/
def violatesSpec (r : RawConfig) : ConfigViolation → Prop
  | ConfigViolation.chunkSizeTooSmall => r.chunk_size < 1
  | ConfigViolation.logicTooShort => r.processing_logic.length < minLogicLength
  | ConfigViolation.emptySchema => r.output_schema = []
  | ConfigViolation.duplicateColumns =>
      ¬(r.output_schema.map SchemaColumn.name).Nodup
  | ConfigViolation.missingApiKey => r.api_key = ""
  | ConfigViolation.missingBaseUrl =>
      r.llm_provider = "custom" ∧ r.api_base_url = ""

/-- Modelled from the spec: the validator runs every check and concatenates
the violations, never stopping at the first. -/
def configViolations (r : RawConfig) : List ConfigViolation :=
  (if r.chunk_size < 1 then [ConfigViolation.chunkSizeTooSmall] else [])
    ++ (if r.processing_logic.length < minLogicLength then
          [ConfigViolation.logicTooShort] else [])
    ++ (if r.output_schema = [] then [ConfigViolation.emptySchema] else [])
    ++ (if (r.output_schema.map SchemaColumn.name).Nodup then []
        else [ConfigViolation.duplicateColumns])
    ++ (if r.api_key = "" then [ConfigViolation.missingApiKey] else [])
    ++ (if r.llm_provider = "custom" ∧ r.api_base_url = "" then
          [ConfigViolation.missingBaseUrl] else [])

/-- A validation failure carrying the full list of violations. -/
structure ConfigError where
  violations : List ConfigViolation
  deriving DecidableEq, Repr

/-- Modelled from the spec: a single fallible constructor returning either
the validated configuration or one `ConfigError` with the complete
violation list. -/
def validateConfig (r : RawConfig) : Except ConfigError RawConfig :=
  match configViolations r with
  | [] => Except.ok r
  | v :: vs => Except.error ⟨v :: vs⟩

/-- C4: validation is not fail-fast.  The violation list contains exactly
the violated checks; a clean configuration is accepted; any failure
returns one `ConfigError` carrying the full list; and in particular an
input with an empty `output_schema` and a too-short `processing_logic`
yields a single error listing both violations. -/
theorem configvalidator_collects_all (r : RawConfig) :
    (∀ v, v ∈ configViolations r ↔ violatesSpec r v)
    ∧ (configViolations r = [] → validateConfig r = Except.ok r)
    ∧ (∀ e, validateConfig r = Except.error e →
        e.violations = configViolations r)
    ∧ (r.output_schema = [] → r.processing_logic.length < minLogicLength →
        ∃ e, validateConfig r = Except.error e
          ∧ ConfigViolation.emptySchema ∈ e.violations
          ∧ ConfigViolation.logicTooShort ∈ e.violations) := by
  refine ⟨?_, ?_, ?_, ?_⟩
  · intro v
    match v with
    | ConfigViolation.chunkSizeTooSmall =>
      simp [configViolations, violatesSpec]
    | ConfigViolation.logicTooShort =>
      simp [configViolations, violatesSpec]
    | ConfigViolation.emptySchema =>
      simp [configViolations, violatesSpec]
    | ConfigViolation.duplicateColumns =>
      simp [configViolations, violatesSpec]
    | ConfigViolation.missingApiKey =>
      simp [configViolations, violatesSpec]
    | ConfigViolation.missingBaseUrl =>
      simp [configViolations, violatesSpec]
  · intro h
    simp [validateConfig, h]
  · intro e he
    simp only [validateConfig] at he
    split at he
    · exact absurd he (by simp)
    · next v vs heq =>
      rw [heq]
      injection he with he'
      rw [← he']
  · intro hschema hlogic
    have hmem1 : ConfigViolation.emptySchema ∈ configViolations r := by
      simp [configViolations, hschema]
    have hmem2 : ConfigViolation.logicTooShort ∈ configViolations r := by
      simp [configViolations, hlogic]
    match hv : configViolations r with
    | [] => rw [hv] at hmem1; exact absurd hmem1 (by simp)
    | v :: vs =>
      refine ⟨⟨v :: vs⟩, ?_, ?_, ?_⟩
      · simp [validateConfig, hv]
      · rw [← hv]; exact hmem1
      · rw [← hv]; exact hmem2

/-- Witness for C4: a configuration with an empty schema and a too-short
logic description is rejected with both violations listed. -/
theorem configvalidator_collects_all_witness :
    let r : RawConfig :=
      { chunk_size := 40, processing_logic := "short", output_schema := [],
        llm_provider := "openai", llm_model := "gpt-4", api_key := "k",
        api_base_url := "", max_retries := 3, timeout := 30 }
    (∀ v, v ∈ configViolations r ↔ violatesSpec r v)
    ∧ (configViolations r = [] → validateConfig r = Except.ok r)
    ∧ (∀ e, validateConfig r = Except.error e →
        e.violations = configViolations r)
    ∧ (r.output_schema = [] → r.processing_logic.length < minLogicLength →
        ∃ e, validateConfig r = Except.error e
          ∧ ConfigViolation.emptySchema ∈ e.violations
          ∧ ConfigViolation.logicTooShort ∈ e.violations) :=
  configvalidator_collects_all _

/-! ## ModelInvoker retry outcomes and Job status

Modelled from the spec: the ModelInvoker makes "up to Config.max_retries
attempts per chunk ... On final exhaustion, produces ChunkResult{Failed,
error}"; chunks are "fully independent: no chunk's processing reads or
depends on another chunk's outcome"; and the Aggregator "computes
Job.status: Succeeded (failed_chunks = 0), PartialFailure
(0 < failed_chunks < total_chunks), Failed (failed_chunks =
total_chunks...)".  The backend implementation is not among the
repository's source files. -/

/-- Terminal job status (the terminal-by-counts part of the spec's
Job.status; `partialFailure` is the spec's PartialFailure). -/
inductive JobStatus where
  | succeeded
  | partialFailure
  | failed
  deriving DecidableEq, Repr

/-- Modelled from the spec: Job.status as a function of the chunk counts,
once every chunk has a terminal result. -/
def jobStatus (total failedCount : Nat) : JobStatus :=
  if failedCount = 0 then JobStatus.succeeded
  else if failedCount < total then JobStatus.partialFailure
  else JobStatus.failed

/-- Modelled from the spec: one chunk's retry cycle.  Each entry of
`attempts` is the outcome of one sequential attempt (`true` = the model
call succeeded); the list's length is bounded by max_retries.  The chunk
succeeds at the first successful attempt and fails when all attempts are
exhausted. -/
def runChunk : List Bool → ChunkStatus
  | [] => ChunkStatus.failed
  | true :: _ => ChunkStatus.succeeded
  | false :: rest => runChunk rest

/-- Per-chunk results of a job: each chunk's result is a function of that
chunk's own attempts only. -/
def chunkResults (attempts : List (List Bool)) : List ChunkStatus :=
  attempts.map runChunk

/-- The number of failed chunks. -/
def failedCount (rs : List ChunkStatus) : Nat :=
  rs.countP (fun s => s = ChunkStatus.failed)

/-- The job's terminal status from the per-chunk attempt outcomes. -/
def runJobStatus (attempts : List (List Bool)) : JobStatus :=
  jobStatus attempts.length (failedCount (chunkResults attempts))

/-- A chunk that exhausts its retries (no attempt succeeded) is Failed. -/
theorem runChunk_exhausted (attempts : List Bool)
    (h : attempts.all (fun b => b = false)) :
    runChunk attempts = ChunkStatus.failed := by
  induction attempts with
  | nil => rfl
  | cons b rest ih =>
    simp only [List.all_cons, Bool.and_eq_true, decide_eq_true_eq] at h
    rw [h.1]
    show runChunk rest = ChunkStatus.failed
    exact ih (by simpa using h.2)

/-- C5: with every chunk terminal, Job.status is a total function of the
counts - Succeeded when no chunk failed, PartialFailure when some but not
all failed, Failed when all failed (for a job with at least one chunk).
And retries are isolated: if chunk `i` exhausts its retries while every
other chunk's attempts are unchanged, only chunk `i`'s result is Failed
and every other chunk's result is unchanged; with more than one chunk and
at least one success the status is PartialFailure. -/
theorem job_status_counts (att att' : List (List Bool)) (i : Nat) :
    (∀ total fc : Nat,
      (fc = 0 → jobStatus total fc = JobStatus.succeeded)
      ∧ (0 < fc → fc < total → jobStatus total fc = JobStatus.partialFailure)
      ∧ (0 < total → fc = total → jobStatus total fc = JobStatus.failed))
    ∧ (att.length = att'.length →
        (∀ j, j ≠ i → att[j]? = att'[j]?) →
        (∀ a, att'[i]? = some a → a.all (fun b => b = false)) →
        ((∀ j, j ≠ i →
            (chunkResults att)[j]? = (chunkResults att')[j]?)
          ∧ (∀ a, att'[i]? = some a →
              (chunkResults att')[i]? = some ChunkStatus.failed)))
    ∧ (1 < att.length →
        (∃ s ∈ chunkResults att, s = ChunkStatus.succeeded) →
        (∃ s ∈ chunkResults att, s = ChunkStatus.failed) →
        runJobStatus att = JobStatus.partialFailure) := by
  refine ⟨?_, ?_, ?_⟩
  · intro total fc
    refine ⟨fun h => by simp [jobStatus, h], fun h1 h2 => ?_, fun h1 h2 => ?_⟩
    · simp only [jobStatus]
      rw [if_neg (by omega), if_pos h2]
    · simp only [jobStatus]
      rw [if_neg (by omega), if_neg (by omega)]
  · intro _ hsame hexh
    constructor
    · intro j hj
      simp only [chunkResults, List.getElem?_map, hsame j hj]
    · intro a ha
      simp only [chunkResults, List.getElem?_map, ha, Option.map_some']
      rw [runChunk_exhausted a (hexh a ha)]
  · intro hlen hsucc hfail
    simp only [runJobStatus, jobStatus]
    have hcnt_pos : 0 < failedCount (chunkResults att) := by
      rcases hfail with ⟨s, hs, hseq⟩
      simp only [failedCount]
      rw [List.countP_pos_iff]
      exact ⟨s, hs, by simp [hseq]⟩
    have hcnt_lt : failedCount (chunkResults att) < att.length := by
      rcases hsucc with ⟨s, hs, hseq⟩
      have hle : failedCount (chunkResults att) ≤ (chunkResults att).length :=
        List.countP_le_length _
      have hlen_eq : (chunkResults att).length = att.length := by
        simp [chunkResults]
      rcases Nat.lt_or_ge (failedCount (chunkResults att))
          (chunkResults att).length with h | h
      · omega
      · exfalso
        have heq : failedCount (chunkResults att) = (chunkResults att).length :=
          Nat.le_antisymm hle h
        have hall := List.countP_eq_length.mp heq
        have := hall s hs
        rw [hseq] at this
        simp at this
    rw [if_neg (by omega), if_pos hcnt_lt]

/-- Witness for C5: a three-chunk job in which chunk 1 exhausts its two
retries while chunks 0 and 2 succeed ends in PartialFailure, with only
chunk 1 Failed. -/
theorem job_status_counts_witness :
    ((∀ j, j ≠ 1 →
        (chunkResults [[true], [false, true], [true]])[j]? =
          (chunkResults [[true], [false, false], [true]])[j]?)
      ∧ (∀ a, ([[true], [false, false], [true]] : List (List Bool))[1]? = some a →
          (chunkResults [[true], [false, false], [true]])[1]? =
            some ChunkStatus.failed))
    ∧ runJobStatus [[true], [false, false], [true]] =
        JobStatus.partialFailure :=
  ⟨(job_status_counts [[true], [false, true], [true]]
        [[true], [false, false], [true]] 1).2.1
      (by decide)
      (by
        intro j hj
        match j with
        | 0 => rfl
        | 1 => exact absurd rfl hj
        | n + 2 => rfl)
      (by
        intro a ha
        simp only [List.getElem?_cons_succ, List.getElem?_cons_zero,
          Option.some.injEq] at ha
        rw [← ha]
        decide),
    (job_status_counts [[true], [false, false], [true]]
        [[true], [false, false], [true]] 1).2.2
      (by decide) (by decide) (by decide)⟩

/-! ## Progress and the completed-chunk counter

The frontend progress state and its simulated update step are embedded
from `ProcessingPanel.handleStartProcessing` (the `setInterval` callback:
`if (prev.current < prev.total - 1) { newCurrent = prev.current + 1;
newPercent = Math.round((newCurrent / prev.total) * 90) }`).  The
backend's completed-chunk counter is modelled from the spec: "Exposes a
monotonically increasing completed-chunk counter for external polling". -/

/-- The frontend progress state (`useState` in ProcessingPanel). -/
structure Progress where
  percent : Nat
  current : Nat
  total : Nat
  deriving DecidableEq, Repr

/-- `Math.round((c / total) * 90)` as exact rational rounding:
`⌊90·c/total + 1/2⌋ = ⌊(180·c + total) / (2·total)⌋`. -/
def jsRound90 (c total : Nat) : Nat := (180 * c + total) / (2 * total)

/-- One tick of the simulated progress interval, from
`ProcessingPanel.handleStartProcessing`.  JavaScript's
`prev.current < prev.total - 1` is `p.current + 1 < p.total` over the
integers (for `p.total = 0` both sides reject). -/
def progressStep (p : Progress) : Progress :=
  if p.current + 1 < p.total then
    { p with
        current := p.current + 1
        percent := jsRound90 (p.current + 1) p.total }
  else p

/-- The initial progress state set before the interval starts
(`{ percent: 0, status: active, current: 0, total: estimatedChunks }`). -/
def initProgress (total : Nat) : Progress :=
  { percent := 0, current := 0, total := total }

/-- The progress state after `n` ticks. -/
def progressAt (total n : Nat) : Progress :=
  progressStep^[n] (initProgress total)

/-- Modelled from the spec: the completed-chunk counter exposed for
polling, as a function of the chunk-completion events observed so far
(each event the index of a chunk reaching its terminal result). -/
def completedCounter (events : List Nat) : Nat := events.length

theorem progressAt_succ (total n : Nat) :
    progressAt total (n + 1) = progressStep (progressAt total n) := by
  simp [progressAt, Function.iterate_succ_apply']

/-- Invariant of the progress trajectory: the total is constant, the
percent is the rounded 90-scaled ratio, and current stays below total
(or at 0 for an empty estimate). -/
theorem progressAt_invariant (total : Nat) :
    ∀ n, (progressAt total n).total = total
      ∧ (progressAt total n).percent =
          jsRound90 (progressAt total n).current total
      ∧ (progressAt total n).current ≤ total := by
  intro n
  induction n with
  | zero =>
    refine ⟨rfl, ?_, by simp [progressAt, initProgress]⟩
    show (0 : Nat) = jsRound90 0 total
    simp only [jsRound90, Nat.mul_zero, Nat.zero_add]
    rcases Nat.eq_zero_or_pos total with h | h
    · subst h; rfl
    · exact (Nat.div_eq_of_lt (by omega)).symm
  | succ n ih =>
    rw [progressAt_succ]
    rcases ih with ⟨htot, hpct, hcur⟩
    simp only [progressStep, htot]
    split
    · next h =>
      refine ⟨rfl, rfl, ?_⟩
      show (progressAt total n).current + 1 ≤ total
      omega
    · exact ⟨htot, hpct, hcur⟩

/-- C8: the completed-chunk counter exposed for polling is monotone - over
any prefix of the completion-event sequence it is no larger than over the
whole sequence - and never exceeds `total_chunks` when each dispatched
chunk completes at most once; and in the frontend's progress state, every
tick of the progress-update function leaves both `current` and `percent`
no smaller than their previous values, with `current` never exceeding the
chunk total. -/
theorem progress_counter_monotone (events events' : List Nat)
    (total n : Nat) :
    (events <+: events' → completedCounter events ≤ completedCounter events')
    ∧ (events.Nodup → (∀ e ∈ events, e < total) →
        completedCounter events ≤ total)
    ∧ ((progressAt total n).current ≤ (progressAt total (n + 1)).current
        ∧ (progressAt total n).percent ≤ (progressAt total (n + 1)).percent)
    ∧ (progressAt total n).current ≤ total := by
  refine ⟨?_, ?_, ?_, (progressAt_invariant total n).2.2⟩
  · intro hpre
    exact hpre.length_le
  · intro hnodup hlt
    have hsub : events.toFinset ⊆ Finset.range total := by
      intro e he
      rw [Finset.mem_range]
      exact hlt e (List.mem_toFinset.mp he)
    have hcard := Finset.card_le_card hsub
    rw [Finset.card_range] at hcard
    rw [List.toFinset_card_of_nodup hnodup] at hcard
    exact hcard
  · rcases progressAt_invariant total n with ⟨htot, hpct, hcur⟩
    rw [progressAt_succ]
    simp only [progressStep, htot]
    split
    · next h =>
      refine ⟨?_, ?_⟩
      · show (progressAt total n).current ≤ (progressAt total n).current + 1
        omega
      · show (progressAt total n).percent ≤
          jsRound90 ((progressAt total n).current + 1) total
        rw [hpct]
        simp only [jsRound90]
        apply Nat.div_le_div_right
        omega
    · exact ⟨Nat.le_refl _, Nat.le_refl _⟩

/-- Witness for C8: three completion events out of five chunks, and the
fourth tick of a five-chunk progress simulation. -/
theorem progress_counter_monotone_witness :
    (completedCounter [0, 1] ≤ completedCounter [0, 1, 4]
      ∧ completedCounter [0, 1, 4] ≤ 5)
    ∧ ((progressAt 5 3).current ≤ (progressAt 5 4).current
        ∧ (progressAt 5 3).percent ≤ (progressAt 5 4).percent)
    ∧ (progressAt 5 3).current ≤ 5 :=
  ⟨⟨(progress_counter_monotone [0, 1] [0, 1, 4] 5 3).1 (by decide),
      (progress_counter_monotone [0, 1, 4] [0, 1, 4] 5 3).2.1
        (by decide) (by decide)⟩,
    (progress_counter_monotone [0, 1, 4] [0, 1, 4] 5 3).2.2.1,
    (progress_counter_monotone [0, 1, 4] [0, 1, 4] 5 3).2.2.2⟩

/-! ## FileUpload.handleFileSelect

Embedded from `src/frontend/src/components/FileUpload.js`: the file-type
check `!file.name.toLowerCase().endsWith('.csv')`, the size check
`file.size > 50 * 1024 * 1024`, and on acceptance the recorded file info
and the single `onFileSelect(file)` callback.  File names are embedded as
character lists; `sizeFormatted`, a floating-point display string, is not
modelled. -/

/-- JavaScript `toLowerCase` on one character (ASCII range, which is all
the `.csv` check inspects). -/
def jsToLower (ch : Char) : Char :=
  if 'A' ≤ ch ∧ ch ≤ 'Z' then Char.ofNat (ch.toNat + 32) else ch

/-- The extension the upload accepts. -/
def csvExt : List Char := ['.', 'c', 's', 'v']

/-- `file.name.toLowerCase().endsWith('.csv')`. -/
def nameIsCsv (name : List Char) : Bool :=
  csvExt.isSuffixOf (name.map jsToLower)

/-- The observable fields of the JavaScript `File` object used by
`handleFileSelect` (`type` is a reserved word, hence `ftype`). -/
structure JsFile where
  name : List Char
  size : Nat
  ftype : String
  lastModified : Nat
  deriving DecidableEq, Repr

/-- The `info` record built on acceptance. -/
structure FileInfo where
  name : List Char
  size : Nat
  ftype : String
  lastModified : Nat
  deriving DecidableEq, Repr

/-- The 50 MB size limit (`50 * 1024 * 1024`). -/
def maxFileSize : Nat := 50 * 1024 * 1024

/-- The observable outcome of one `handleFileSelect` call: the list of
`onFileSelect` invocations and the recorded file info. -/
structure SelectOutcome where
  onFileSelectCalls : List JsFile
  fileInfo : Option FileInfo
  deriving DecidableEq, Repr

/-- Embedded from `handleFileSelect` in FileUpload.js. -/
def handleFileSelect (f : JsFile) : SelectOutcome :=
  if ¬ nameIsCsv f.name then
    { onFileSelectCalls := [], fileInfo := none }
  else if f.size > maxFileSize then
    { onFileSelectCalls := [], fileInfo := none }
  else
    { onFileSelectCalls := [f],
      fileInfo := some
        { name := f.name, size := f.size, ftype := f.ftype,
          lastModified := f.lastModified } }

/-- C9: a file whose lowercased name does not end in ".csv", or whose size
exceeds 50 MB, is rejected - `onFileSelect` is not invoked and no file
info is recorded; otherwise the file is accepted, its info is recorded and
`onFileSelect` is invoked exactly once with that file. -/
theorem fileupload_filter (f : JsFile) :
    (¬ (nameIsCsv f.name = true) ∨ f.size > maxFileSize →
      (handleFileSelect f).onFileSelectCalls = []
        ∧ (handleFileSelect f).fileInfo = none)
    ∧ (nameIsCsv f.name = true → f.size ≤ maxFileSize →
        (handleFileSelect f).onFileSelectCalls = [f]
          ∧ (handleFileSelect f).fileInfo = some
              { name := f.name, size := f.size, ftype := f.ftype,
                lastModified := f.lastModified }) := by
  constructor
  · intro h
    rcases h with h | h
    · simp only [handleFileSelect]
      rw [if_pos (by simpa using h)]
      exact ⟨rfl, rfl⟩
    · simp only [handleFileSelect]
      by_cases hcsv : nameIsCsv f.name
      · rw [if_neg (by simpa using hcsv), if_pos h]
        exact ⟨rfl, rfl⟩
      · rw [if_pos (by simpa using hcsv)]
        exact ⟨rfl, rfl⟩
  · intro hcsv hsize
    simp only [handleFileSelect]
    rw [if_neg (by simpa using hcsv), if_neg (by omega)]
    exact ⟨rfl, rfl⟩

/-- Witness for C9: "Data.CSV" of 1000 bytes is accepted and passed to
`onFileSelect` once; an oversized ".csv" upload is rejected through the
same theorem's rejection branch. -/
theorem fileupload_filter_witness :
    ((handleFileSelect
          ⟨['D', 'a', 't', 'a', '.', 'C', 'S', 'V'], 1000, "text/csv", 7⟩
        ).onFileSelectCalls =
        [⟨['D', 'a', 't', 'a', '.', 'C', 'S', 'V'], 1000, "text/csv", 7⟩]
      ∧ (handleFileSelect
          ⟨['D', 'a', 't', 'a', '.', 'C', 'S', 'V'], 1000, "text/csv", 7⟩
        ).fileInfo =
          some ⟨['D', 'a', 't', 'a', '.', 'C', 'S', 'V'], 1000, "text/csv", 7⟩)
    ∧ ((handleFileSelect
          ⟨['b', '.', 'c', 's', 'v'], 52428801, "text/csv", 7⟩
        ).onFileSelectCalls = []
        ∧ (handleFileSelect
            ⟨['b', '.', 'c', 's', 'v'], 52428801, "text/csv", 7⟩
          ).fileInfo = none) :=
  ⟨(fileupload_filter
        ⟨['D', 'a', 't', 'a', '.', 'C', 'S', 'V'], 1000, "text/csv", 7⟩).2
      (by decide) (by decide),
    (fileupload_filter
        ⟨['b', '.', 'c', 's', 'v'], 52428801, "text/csv", 7⟩).1
      (Or.inr (by decide))⟩

/-! ## Local configuration storage

Embedded from `src/frontend/src/utils/storage.js`: `saveConfig` reads the
saved-configs object, sets `configs[name] = { ...config, createdAt,
updatedAt }` and writes it back; `getConfig` returns `configs[name] ||
null`; `deleteConfig` removes the key.  The JSON serialization layer
(`JSON.stringify`/`JSON.parse` on the single localStorage entry) is the
identity on these plain objects and is not modelled separately.
JavaScript objects are string-keyed maps; they are embedded as association
lists where assignment overwrites an existing key in place and appends
otherwise. -/

/-- JavaScript object field assignment `m[k] = v`. -/
def objSet {V : Type} (m : List (String × V)) (k : String) (v : V) :
    List (String × V) :=
  if m.any (fun p => p.1 = k) then
    m.map (fun p => if p.1 = k then (k, v) else p)
  else m ++ [(k, v)]

/-- JavaScript object field access `m[k]` (as `Option`). -/
def objGet {V : Type} (m : List (String × V)) (k : String) : Option V :=
  (m.find? (fun p => p.1 = k)).map (fun p => p.2)

/-- JavaScript `delete m[k]`. -/
def objDelete {V : Type} (m : List (String × V)) (k : String) :
    List (String × V) :=
  m.filter (fun p => ¬ p.1 = k)

/-- A stored configuration object: its fields as a string-keyed map. -/
abbrev FieldMap := List (String × String)

/-- The saved-configs collection (the parsed value of the
`csv_processor_configs` localStorage entry). -/
abbrev ConfigsMap := List (String × FieldMap)

/-- `{ ...config, createdAt: now, updatedAt: now }` from
`storage.saveConfig` (both timestamps taken at the same instant). -/
def savedConfig (now : String) (c : FieldMap) : FieldMap :=
  objSet (objSet c "createdAt" now) "updatedAt" now

/-- Embedded from `storage.saveConfig`. -/
def saveConfig (store : ConfigsMap) (name : String) (c : FieldMap)
    (now : String) : ConfigsMap :=
  objSet store name (savedConfig now c)

/-- Embedded from `storage.getConfig` (`configs[name] || null`). -/
def getConfig (store : ConfigsMap) (name : String) : Option FieldMap :=
  objGet store name

/-- Embedded from `storage.deleteConfig`. -/
def deleteConfig (store : ConfigsMap) (name : String) : ConfigsMap :=
  objDelete store name

theorem objGet_map_overwrite {V : Type} (k : String) (v : V) :
    ∀ m : List (String × V), m.any (fun p => p.1 = k) →
      objGet (m.map (fun p => if p.1 = k then (k, v) else p)) k = some v := by
  intro m
  induction m with
  | nil => simp
  | cons p t ih =>
    intro hany
    by_cases hp : p.1 = k
    · simp [objGet, hp]
    · have ht : t.any (fun q => q.1 = k) := by
        simp only [List.any_cons, Bool.or_eq_true, decide_eq_true_eq] at hany
        rcases hany with h | h
        · exact absurd h hp
        · exact h
      simp only [List.map_cons, if_neg hp, objGet] at ih ⊢
      rw [List.find?_cons_of_neg _ (by simpa using hp)]
      exact ih ht

theorem objGet_append_new {V : Type} (k : String) (v : V) :
    ∀ m : List (String × V), m.any (fun p => p.1 = k) = false →
      objGet (m ++ [(k, v)]) k = some v := by
  intro m
  induction m with
  | nil => simp [objGet]
  | cons p t ih =>
    intro hany
    simp only [List.any_cons, Bool.or_eq_false_iff] at hany
    have hp : ¬ p.1 = k := by simpa using hany.1
    simp only [List.cons_append, objGet] at ih ⊢
    rw [List.find?_cons_of_neg _ (by simpa using hp)]
    exact ih hany.2

theorem objGet_objSet_self {V : Type} (m : List (String × V)) (k : String)
    (v : V) : objGet (objSet m k v) k = some v := by
  simp only [objSet]
  split
  · next h => exact objGet_map_overwrite k v m h
  · next h => exact objGet_append_new k v m (by rwa [Bool.not_eq_true] at h)

theorem objGet_map_other {V : Type} (k k' : String) (v : V) (hne : k' ≠ k) :
    ∀ m : List (String × V),
      objGet (m.map (fun p => if p.1 = k then (k, v) else p)) k' =
        objGet m k' := by
  intro m
  induction m with
  | nil => rfl
  | cons p t ih =>
    by_cases hp : p.1 = k
    · simp only [List.map_cons, if_pos hp, objGet] at ih ⊢
      rw [List.find?_cons_of_neg _ (by simpa using hne.symm),
        List.find?_cons_of_neg _ (by rw [hp]; simpa using hne.symm)]
      exact ih
    · simp only [List.map_cons, if_neg hp, objGet] at ih ⊢
      by_cases hk' : p.1 = k'
      · rw [List.find?_cons_of_pos _ (by simpa using hk'),
          List.find?_cons_of_pos _ (by simpa using hk')]
      · rw [List.find?_cons_of_neg _ (by simpa using hk'),
          List.find?_cons_of_neg _ (by simpa using hk')]
        exact ih

theorem objGet_append_other {V : Type} (k k' : String) (v : V)
    (hne : k' ≠ k) :
    ∀ m : List (String × V), objGet (m ++ [(k, v)]) k' = objGet m k' := by
  intro m
  induction m with
  | nil =>
    simp only [List.nil_append, objGet]
    rw [List.find?_cons_of_neg _ (by simpa using hne.symm)]
  | cons p t ih =>
    simp only [List.cons_append, objGet] at ih ⊢
    by_cases hk' : p.1 = k'
    · rw [List.find?_cons_of_pos _ (by simpa using hk'),
        List.find?_cons_of_pos _ (by simpa using hk')]
    · rw [List.find?_cons_of_neg _ (by simpa using hk'),
        List.find?_cons_of_neg _ (by simpa using hk')]
      exact ih

theorem objGet_objSet_other {V : Type} (m : List (String × V))
    (k k' : String) (v : V) (hne : k' ≠ k) :
    objGet (objSet m k v) k' = objGet m k' := by
  simp only [objSet]
  split
  · exact objGet_map_other k k' v hne m
  · exact objGet_append_other k k' v hne m

theorem objGet_objDelete_self {V : Type} (m : List (String × V))
    (k : String) : objGet (objDelete m k) k = none := by
  simp only [objGet, objDelete, Option.map_eq_none']
  rw [List.find?_eq_none]
  intro p hp
  have := (List.mem_filter.mp hp).2
  simpa using this

theorem objGet_objDelete_other {V : Type} (m : List (String × V))
    (k k' : String) (hne : k' ≠ k) :
    objGet (objDelete m k) k' = objGet m k' := by
  induction m with
  | nil => rfl
  | cons p t ih =>
    simp only [objDelete, List.filter_cons] at ih ⊢
    by_cases hp : p.1 = k
    · rw [if_neg (by simpa using hp)]
      simp only [objGet]
      rw [List.find?_cons_of_neg _ (by rw [hp]; simpa using hne.symm)]
      exact ih
    · rw [if_pos (by simpa using hp)]
      simp only [objGet] at ih ⊢
      by_cases hk' : p.1 = k'
      · rw [List.find?_cons_of_pos _ (by simpa using hk'),
          List.find?_cons_of_pos _ (by simpa using hk')]
      · rw [List.find?_cons_of_neg _ (by simpa using hk'),
          List.find?_cons_of_neg _ (by simpa using hk')]
        exact ih

/-- C10: after `saveConfig(n, c)`, `getConfig(n)` returns `c` extended
with `createdAt` and `updatedAt` (every other field of `c` preserved), and
every other name is unchanged; after `deleteConfig(n)`, `getConfig(n)` is
null and other names are unchanged. -/
theorem storage_saveConfig_getConfig (store : ConfigsMap) (n m : String)
    (c : FieldMap) (now : String) :
    (getConfig (saveConfig store n c now) n = some (savedConfig now c)
      ∧ (∀ k, k ≠ "createdAt" → k ≠ "updatedAt" →
          objGet (savedConfig now c) k = objGet c k)
      ∧ objGet (savedConfig now c) "createdAt" = some now
      ∧ objGet (savedConfig now c) "updatedAt" = some now)
    ∧ (m ≠ n → getConfig (saveConfig store n c now) m = getConfig store m)
    ∧ getConfig (deleteConfig store n) n = none
    ∧ (m ≠ n → getConfig (deleteConfig store n) m = getConfig store m) := by
  refine ⟨⟨?_, ?_, ?_, ?_⟩, ?_, ?_, ?_⟩
  · exact objGet_objSet_self store n (savedConfig now c)
  · intro k hk1 hk2
    simp only [savedConfig]
    rw [objGet_objSet_other _ _ _ _ hk2, objGet_objSet_other _ _ _ _ hk1]
  · simp only [savedConfig]
    rw [objGet_objSet_other _ _ _ _ (by decide),
      objGet_objSet_self]
  · exact objGet_objSet_self _ _ _
  · intro hm
    exact objGet_objSet_other store n m (savedConfig now c) hm
  · exact objGet_objDelete_self store n
  · intro hm
    exact objGet_objDelete_other store n m hm

/-- Witness for C10: saving configuration "a" leaves configuration "b"
unchanged and deleting "a" removes it. -/
theorem storage_saveConfig_getConfig_witness :
    (getConfig
        (saveConfig [("b", [("chunk_size", "40")])] "a"
          [("processing_logic", "classify")] "t0") "a"
      = some (savedConfig "t0" [("processing_logic", "classify")])
      ∧ (∀ k, k ≠ "createdAt" → k ≠ "updatedAt" →
          objGet (savedConfig "t0" [("processing_logic", "classify")]) k =
            objGet [("processing_logic", "classify")] k)
      ∧ objGet (savedConfig "t0" [("processing_logic", "classify")])
          "createdAt" = some "t0"
      ∧ objGet (savedConfig "t0" [("processing_logic", "classify")])
          "updatedAt" = some "t0")
    ∧ getConfig
        (saveConfig [("b", [("chunk_size", "40")])] "a"
          [("processing_logic", "classify")] "t0") "b"
      = getConfig [("b", [("chunk_size", "40")])] "b"
    ∧ getConfig (deleteConfig [("b", [("chunk_size", "40")])] "a") "a" = none
    ∧ getConfig (deleteConfig [("b", [("chunk_size", "40")])] "a") "b"
      = getConfig [("b", [("chunk_size", "40")])] "b" :=
  ⟨(storage_saveConfig_getConfig [("b", [("chunk_size", "40")])] "a" "b"
      [("processing_logic", "classify")] "t0").1,
    (storage_saveConfig_getConfig [("b", [("chunk_size", "40")])] "a" "b"
      [("processing_logic", "classify")] "t0").2.1 (by decide),
    (storage_saveConfig_getConfig [("b", [("chunk_size", "40")])] "a" "b"
      [("processing_logic", "classify")] "t0").2.2.1,
    (storage_saveConfig_getConfig [("b", [("chunk_size", "40")])] "a" "b"
      [("processing_logic", "classify")] "t0").2.2.2 (by decide)⟩

/-! ## ConfigForm rules and ProcessingPanel.canStartProcessing

Embedded from `ConfigForm` (the antd `rules` of each `Form.Item`: required
`chunk_size` in 1..1000, required provider, model and API key, required
`api_base_url` when the provider is "custom", required `processing_logic`
of at least 10 characters) and from `ProcessingPanel.canStartProcessing`
(`file && config && config.processing_logic && config.output_schema &&
config.output_schema.length > 0 && config.api_key && !processing`).
JavaScript string truthiness is non-emptiness. -/

/-- The form's field values (an unfilled number field is `none`). -/
structure FormConfig where
  chunk_size : Option Int
  llm_provider : String
  llm_model : String
  api_key : String
  api_base_url : String
  processing_logic : String
  output_schema : List SchemaColumn
  deriving DecidableEq, Repr

/-- Embedded from the `ConfigForm` rules: does every field-level rule
hold? -/
def configFormValid (c : FormConfig) : Bool :=
  (match c.chunk_size with
    | some n => decide (1 ≤ n ∧ n ≤ 1000)
    | none => false)
  && !(c.llm_provider == "")
  && !(c.llm_model == "")
  && !(c.api_key == "")
  && (if c.llm_provider == "custom" then !(c.api_base_url == "") else true)
  && !(c.processing_logic == "")
  && decide (10 ≤ c.processing_logic.length)

/-- Embedded from `ProcessingPanel.canStartProcessing`. -/
def canStartProcessing (hasFile : Bool) (config : Option FormConfig)
    (processing : Bool) : Bool :=
  hasFile
    && (match config with
        | none => false
        | some c =>
          !(c.processing_logic == "")
            && !c.output_schema.isEmpty
            && !(c.api_key == ""))
    && !processing

/-- C7: with provider "custom" an absent base endpoint fails validation;
for every provider an absent credential fails validation; and processing
cannot be started without the credential. -/
theorem provider_required_fields (c : FormConfig) :
    (c.llm_provider = "custom" → c.api_base_url = "" →
      configFormValid c = false)
    ∧ (c.api_key = "" → configFormValid c = false)
    ∧ (∀ hasFile processing, c.api_key = "" →
        canStartProcessing hasFile (some c) processing = false)
    ∧ (∀ hasFile processing,
        canStartProcessing hasFile none processing = false) := by
  refine ⟨?_, ?_, ?_, ?_⟩
  · intro hp hb
    simp [configFormValid, hp, hb]
  · intro hk
    simp [configFormValid, hk]
  · intro hasFile processing hk
    simp [canStartProcessing, hk]
  · intro hasFile processing
    simp [canStartProcessing]

/-- Witness for C7: a custom-provider configuration with an empty base URL
and an empty API key is rejected and cannot start processing. -/
theorem provider_required_fields_witness :
    (configFormValid
        { chunk_size := some 40, llm_provider := "custom", llm_model := "m",
          api_key := "", api_base_url := "",
          processing_logic := "classify all questions",
          output_schema := [⟨"category", "the label"⟩] } = false)
    ∧ (canStartProcessing true
        (some
          { chunk_size := some 40, llm_provider := "custom", llm_model := "m",
            api_key := "", api_base_url := "",
            processing_logic := "classify all questions",
            output_schema := [⟨"category", "the label"⟩] }) false = false) :=
  ⟨(provider_required_fields _).1 (by decide) (by decide),
    (provider_required_fields _).2.2.1 true false (by decide)⟩

/-! ## downloadResult path encoding and the download endpoint

Embedded from `src/frontend/src/utils/api.js` `downloadResult`:
`filePath.split('/').map(segment => encodeURIComponent(segment)).join('/')`.
Paths are embedded as character lists; `encodeURIComponent` keeps the
unreserved characters `A-Z a-z 0-9 - _ . ! ~ * ' ( )` and percent-encodes
the UTF-8 bytes of every other character.  The server side of the fetch-
artifact operation is not among the repository's source files and is
modelled from the spec: "must reject any reference containing
path-traversal segments". -/

/-- `filePath.split('/')`. -/
def splitSegs : List Char → List (List Char)
  | [] => [[]]
  | ch :: t =>
    if ch = '/' then [] :: splitSegs t
    else
      match splitSegs t with
      | [] => [[ch]]
      | seg :: rest => (ch :: seg) :: rest

/-- `segments.join('/')`. -/
def joinSegs : List (List Char) → List Char
  | [] => []
  | [s] => s
  | s :: rest => s ++ '/' :: joinSegs rest

/-- The characters `encodeURIComponent` leaves unencoded. -/
def jsUnreserved (ch : Char) : Bool :=
  ch.isAlphanum || ch = '-' || ch = '_' || ch = '.' || ch = '!' || ch = '~'
    || ch = '*' || ch = '\'' || ch = '(' || ch = ')'

/-- The UTF-8 bytes of one character. -/
def utf8Bytes (ch : Char) : List Nat :=
  if ch.toNat < 0x80 then [ch.toNat]
  else if ch.toNat < 0x800 then
    [0xC0 + ch.toNat / 64, 0x80 + ch.toNat % 64]
  else if ch.toNat < 0x10000 then
    [0xE0 + ch.toNat / 4096, 0x80 + ch.toNat / 64 % 64, 0x80 + ch.toNat % 64]
  else [0xF0 + ch.toNat / 262144, 0x80 + ch.toNat / 4096 % 64,
    0x80 + ch.toNat / 64 % 64, 0x80 + ch.toNat % 64]

/-- The uppercase hex digit for `n < 16`. -/
def hexDigit (n : Nat) : Char :=
  if n < 10 then Char.ofNat ('0'.toNat + n) else Char.ofNat ('A'.toNat + n - 10)

/-- `%XY` for one byte. -/
def percentByte (b : Nat) : List Char :=
  ['%', hexDigit (b / 16), hexDigit (b % 16)]

/-- `encodeURIComponent` on one path segment. -/
def encodeSeg (seg : List Char) : List Char :=
  seg.flatMap (fun ch =>
    if jsUnreserved ch then [ch] else (utf8Bytes ch).flatMap percentByte)

/-- Embedded from `downloadResult` in api.js: the path sent to the
download endpoint. -/
def encodedPath (fp : List Char) : List Char :=
  joinSegs ((splitSegs fp).map encodeSeg)

/-- Does the reference contain a path-traversal segment (a component equal
to "..")? -/
def hasTraversalSegment (fp : List Char) : Bool :=
  (splitSegs fp).any (fun s => s = ['.', '.'])

/-- Modelled from the spec: the fetch-artifact operation, which "must
reject any reference containing path-traversal segments"; `files` is the
server's artifact store keyed by reference. -/
def fetchArtifact (files : List (List Char × List Char)) (ref : List Char) :
    Option (List Char) :=
  if hasTraversalSegment ref then none
  else (files.find? (fun p => p.1 = ref)).map (fun p => p.2)

/-- C6 counterexample: the claim that "the client-side downloadResult
never forwards a traversal segment to the download endpoint unneutralized"
is false.  `encodeURIComponent` leaves `.` unencoded, so the reference
`../outputs/result.csv` is forwarded to the download endpoint verbatim,
traversal segment included. -/
theorem download_traversal_counterexample :
    encodedPath
        ['.', '.', '/', 'o', 'u', 't', 'p', 'u', 't', 's', '/', 'r', 'e',
          's', 'u', 'l', 't', '.', 'c', 's', 'v']
      = ['.', '.', '/', 'o', 'u', 't', 'p', 'u', 't', 's', '/', 'r', 'e',
          's', 'u', 'l', 't', '.', 'c', 's', 'v']
    ∧ hasTraversalSegment
        (encodedPath
          ['.', '.', '/', 'o', 'u', 't', 'p', 'u', 't', 's', '/', 'r', 'e',
            's', 'u', 'l', 't', '.', 'c', 's', 'v']) = true := by
  decide

theorem char_toNat_lt (ch : Char) : ch.toNat < 1114112 := by
  have h := ch.valid
  rcases h with h | ⟨_, h2⟩
  · exact Nat.lt_trans h (by decide)
  · exact h2

theorem utf8Bytes_lt_256 (ch : Char) : ∀ b ∈ utf8Bytes ch, b < 256 := by
  intro b hb
  have hval : ch.toNat < 1114112 := char_toNat_lt ch
  simp only [utf8Bytes] at hb
  split_ifs at hb with h1 h2 h3 <;> simp only [List.mem_cons,
    List.mem_singleton, List.not_mem_nil, or_false] at hb
  · omega
  · rcases hb with hb | hb <;> omega
  · rcases hb with hb | hb | hb <;> omega
  · rcases hb with hb | hb | hb | hb <;> omega

theorem hexDigit_ne_slash (n : Nat) (h : n < 16) : hexDigit n ≠ '/' := by
  interval_cases n <;> decide

theorem slash_not_mem_percentByte (b : Nat) (hb : b < 256) :
    '/' ∉ percentByte b := by
  intro hmem
  simp only [percentByte, List.mem_cons, List.mem_singleton,
    List.not_mem_nil, or_false] at hmem
  rcases hmem with h | h | h
  · exact absurd h (by decide)
  · exact hexDigit_ne_slash (b / 16) (by omega) h.symm
  · exact hexDigit_ne_slash (b % 16) (by omega) h.symm

theorem slash_not_mem_encodeSeg (seg : List Char) :
    '/' ∉ encodeSeg seg := by
  intro hmem
  simp only [encodeSeg, List.mem_flatMap] at hmem
  rcases hmem with ⟨ch, _, hmem⟩
  split at hmem
  · next hunres =>
    simp only [List.mem_singleton] at hmem
    rw [← hmem] at hunres
    exact absurd hunres (by decide)
  · simp only [List.mem_flatMap] at hmem
    rcases hmem with ⟨b, hb, hmem⟩
    exact slash_not_mem_percentByte b (utf8Bytes_lt_256 ch b hb) hmem

theorem splitSegs_ne_nil : ∀ s : List Char, splitSegs s ≠ []
  | [] => by simp [splitSegs]
  | ch :: t => by
    simp only [splitSegs]
    split
    · simp
    · split <;> simp

theorem splitSegs_no_slash : ∀ s : List Char, '/' ∉ s → splitSegs s = [s] := by
  intro s
  induction s with
  | nil => intro _; rfl
  | cons ch t ih =>
    intro h
    have hch : ¬ ch = '/' := by
      intro h0
      exact h (h0 ▸ List.mem_cons_self ch t)
    have ht : '/' ∉ t := fun h0 => h (List.mem_cons_of_mem ch h0)
    simp only [splitSegs, if_neg hch, ih ht]

theorem splitSegs_append_slash :
    ∀ (a t : List Char), '/' ∉ a →
      splitSegs (a ++ '/' :: t) = a :: splitSegs t := by
  intro a
  induction a with
  | nil =>
    intro t _
    simp [splitSegs]
  | cons c a' ih =>
    intro t h
    have hc : ¬ c = '/' := by
      intro h0
      exact h (h0 ▸ List.mem_cons_self c a')
    have ha' : '/' ∉ a' := fun h0 => h (List.mem_cons_of_mem c h0)
    simp only [List.cons_append, splitSegs, if_neg hc, List.append_eq,
      ih t ha']

theorem splitSegs_joinSegs :
    ∀ segs : List (List Char), segs ≠ [] → (∀ s ∈ segs, '/' ∉ s) →
      splitSegs (joinSegs segs) = segs := by
  intro segs
  induction segs with
  | nil => intro h _; exact absurd rfl h
  | cons s rest ih =>
    intro _ hns
    match rest with
    | [] =>
      show splitSegs (joinSegs [s]) = [s]
      exact splitSegs_no_slash s (hns s (List.mem_cons_self s []))
    | r2 :: rest' =>
      show splitSegs (s ++ '/' :: joinSegs (r2 :: rest')) = _
      rw [splitSegs_append_slash s _ (hns s (List.mem_cons_self s _))]
      rw [ih (by simp) (fun x hx => hns x (List.mem_cons_of_mem s hx))]

/-- C6 as amended: the fetch-artifact operation (modelled from the spec)
rejects every reference containing a path-traversal segment; the
client-side `downloadResult`, however, percent-encodes each segment with
`encodeURIComponent`, which leaves `.` unencoded, so a traversal segment
in the file path reaches the download endpoint verbatim and neutralizing
it is entirely the server's responsibility. -/
theorem download_traversal_amended (files : List (List Char × List Char))
    (ref fp : List Char) :
    (hasTraversalSegment ref = true → fetchArtifact files ref = none)
    ∧ (hasTraversalSegment fp = true →
        hasTraversalSegment (encodedPath fp) = true) := by
  constructor
  · intro h
    simp [fetchArtifact, h]
  · intro h
    simp only [hasTraversalSegment, List.any_eq_true, decide_eq_true_eq]
      at h ⊢
    rcases h with ⟨seg, hs, hseq⟩
    subst hseq
    have hsplit : splitSegs (encodedPath fp) =
        (splitSegs fp).map encodeSeg := by
      apply splitSegs_joinSegs
      · intro h0
        exact splitSegs_ne_nil fp (List.map_eq_nil_iff.mp h0)
      · intro x hx
        rcases List.mem_map.mp hx with ⟨y, _, hy⟩
        rw [← hy]
        exact slash_not_mem_encodeSeg y
    rw [hsplit]
    exact ⟨encodeSeg ['.', '.'], List.mem_map_of_mem encodeSeg hs, by decide⟩

/-- Witness for the amended C6: the server model rejects `../a`, and the
client forwards the `..` segment of `../a` to the endpoint unchanged. -/
theorem download_traversal_amended_witness :
    fetchArtifact [(['a'], ['d', 'a', 't', 'a'])] ['.', '.', '/', 'a'] = none
    ∧ hasTraversalSegment (encodedPath ['.', '.', '/', 'a']) = true :=
  ⟨(download_traversal_amended [(['a'], ['d', 'a', 't', 'a'])]
        ['.', '.', '/', 'a'] ['.', '.', '/', 'a']).1 (by decide),
    (download_traversal_amended [(['a'], ['d', 'a', 't', 'a'])]
        ['.', '.', '/', 'a'] ['.', '.', '/', 'a']).2 (by decide)⟩

end CsvLLM
